import Mathlib

/-!
Verification of the eznlp sequence-tagging core: the chunk/tag-scheme
translator (`ChunksTagsTranslator`) and the CRF structured layer, together
with the decoder configuration logic of
`src/eznlp/sequence_tagging/decoder.py`.

The translator (`transition.py`) and the CRF (`crf.py`) modules are not
present in the observed source tree; their behaviour is modelled from the
specification (each such definition carries a doc comment starting with
`Modelled from the spec:`).  The decoder-configuration definitions follow
`decoder.py` directly.
-/

namespace Eznlp

/-! ## Tag-scheme data model -/

/-- A chunk: a typed, half-open token span.  `cstop` is the exclusive
upper bound (the Python source calls the fields `(chunk_type, start, end)`;
`end` is a Lean keyword). -/
structure Chunk where
  ctype : String
  cstart : Nat
  cstop : Nat
deriving DecidableEq, Repr

/-- A per-token tag: the outside marker `O`, or a position marker with an
entity-type suffix.  The BMES scheme writes its inside marker `M`; it has
the same semantics as `I` and is represented by the same constructor. -/
inductive Tag where
  | O : Tag
  | B : String → Tag
  | I : String → Tag
  | E : String → Tag
  | S : String → Tag
deriving DecidableEq, Repr

/-- The annotation schemes whose marker semantics the spec defines. -/
inductive Scheme where
  | BIO1 : Scheme
  | BIO2 : Scheme
  | BIOES : Scheme
  | BMES : Scheme
deriving DecidableEq, Repr

/-- Modelled from the spec: the tags produced for one chunk of type `t`
covering `len` tokens.  BIO1/BIO2: `B-T` then `I-T`s.  BIOES/BMES: `S-T`
for a single token, otherwise `B-T`, inside markers, `E-T`. -/
def chunkBodyTags (sch : Scheme) (t : String) (len : Nat) : List Tag :=
  match sch with
  | Scheme.BIO1 | Scheme.BIO2 => Tag.B t :: List.replicate (len - 1) (Tag.I t)
  | Scheme.BIOES | Scheme.BMES =>
      if len = 1 then [Tag.S t] else Tag.B t :: (List.replicate (len - 2) (Tag.I t) ++ [Tag.E t])

/-- Modelled from the spec: lay out tags for the chunks (given in start
order) from position `pos` up to the sequence length `L`; positions not
covered by any chunk get the outside tag. -/
def chunks2tagsFrom (sch : Scheme) (pos L : Nat) : List Chunk → List Tag
  | [] => List.replicate (L - pos) Tag.O
  | c :: rest =>
      List.replicate (c.cstart - pos) Tag.O
        ++ chunkBodyTags sch c.ctype (c.cstop - c.cstart)
        ++ chunks2tagsFrom sch c.cstop L rest

/-- Modelled from the spec: `chunks2tags` — given a sequence length `L` and
a set of non-overlapping chunks (represented as a list sorted by start),
produce a tag sequence of length `L`. -/
def chunks2tags (sch : Scheme) (L : Nat) (cs : List Chunk) : List Tag :=
  chunks2tagsFrom sch 0 L cs

/-- Close the open-chunk state (if any) at position `i`, emitting the
closed chunk. -/
def closeEmit : Option (String × Nat) → Nat → List Chunk
  | none, _ => []
  | some (t, s), i => [⟨t, s, i⟩]

/-- Modelled from the spec: the left-to-right repair scan of
`tags2chunks`, maintaining an "open chunk" state (type and start index).
Outside closes; begin closes and opens; a mismatched inside marker is
treated as a begin marker; a mismatched end marker becomes a single-token
chunk; a single marker closes and emits a one-token chunk. -/
def tags2chunksAux : List Tag → Nat → Option (String × Nat) → List Chunk
  | [], i, cur => closeEmit cur i
  | Tag.O :: rest, i, cur => closeEmit cur i ++ tags2chunksAux rest (i + 1) none
  | Tag.B t :: rest, i, cur => closeEmit cur i ++ tags2chunksAux rest (i + 1) (some (t, i))
  | Tag.I t :: rest, i, cur =>
      match cur with
      | some (u, s) =>
          if u = t then tags2chunksAux rest (i + 1) (some (u, s))
          else ⟨u, s, i⟩ :: tags2chunksAux rest (i + 1) (some (t, i))
      | none => tags2chunksAux rest (i + 1) (some (t, i))
  | Tag.E t :: rest, i, cur =>
      match cur with
      | some (u, s) =>
          if u = t then ⟨t, s, i + 1⟩ :: tags2chunksAux rest (i + 1) none
          else ⟨u, s, i⟩ :: ⟨t, i, i + 1⟩ :: tags2chunksAux rest (i + 1) none
      | none => ⟨t, i, i + 1⟩ :: tags2chunksAux rest (i + 1) none
  | Tag.S t :: rest, i, cur =>
      closeEmit cur i ++ ⟨t, i, i + 1⟩ :: tags2chunksAux rest (i + 1) none

/-- Modelled from the spec: `tags2chunks` — total conversion from an
arbitrary tag sequence back to chunks, repairing malformed inputs. -/
def tags2chunks (tags : List Tag) : List Chunk :=
  tags2chunksAux tags 0 none

/-- Well-formedness of a chunk list relative to a running position `pos`
and the sequence length `L`: chunks are in start order, pairwise
non-overlapping, and each satisfies `pos ≤ start < stop` with the final
stop at most `L`. -/
def chunksOk : Nat → Nat → List Chunk → Prop
  | pos, L, [] => pos ≤ L
  | pos, L, c :: rest => pos ≤ c.cstart ∧ c.cstart < c.cstop ∧ chunksOk c.cstop L rest

lemma aux_nil_none (i : Nat) : tags2chunksAux [] i none = [] := rfl

lemma aux_nil_some (t : String) (s i : Nat) :
    tags2chunksAux [] i (some (t, s)) = [⟨t, s, i⟩] := rfl

lemma aux_O_none (rest : List Tag) (i : Nat) :
    tags2chunksAux (Tag.O :: rest) i none = tags2chunksAux rest (i + 1) none := rfl

lemma aux_O_some (rest : List Tag) (t : String) (s i : Nat) :
    tags2chunksAux (Tag.O :: rest) i (some (t, s))
      = ⟨t, s, i⟩ :: tags2chunksAux rest (i + 1) none := rfl

lemma aux_B_none (rest : List Tag) (t : String) (i : Nat) :
    tags2chunksAux (Tag.B t :: rest) i none = tags2chunksAux rest (i + 1) (some (t, i)) := rfl

lemma aux_B_some (rest : List Tag) (t u : String) (s i : Nat) :
    tags2chunksAux (Tag.B t :: rest) i (some (u, s))
      = ⟨u, s, i⟩ :: tags2chunksAux rest (i + 1) (some (t, i)) := rfl

lemma aux_I_none (rest : List Tag) (t : String) (i : Nat) :
    tags2chunksAux (Tag.I t :: rest) i none = tags2chunksAux rest (i + 1) (some (t, i)) := rfl

lemma aux_I_same (rest : List Tag) (t : String) (s i : Nat) :
    tags2chunksAux (Tag.I t :: rest) i (some (t, s))
      = tags2chunksAux rest (i + 1) (some (t, s)) := by
  simp [tags2chunksAux]

lemma aux_I_diff (rest : List Tag) (t u : String) (s i : Nat) (h : u ≠ t) :
    tags2chunksAux (Tag.I t :: rest) i (some (u, s))
      = ⟨u, s, i⟩ :: tags2chunksAux rest (i + 1) (some (t, i)) := by
  simp [tags2chunksAux, h]

lemma aux_E_none (rest : List Tag) (t : String) (i : Nat) :
    tags2chunksAux (Tag.E t :: rest) i none
      = ⟨t, i, i + 1⟩ :: tags2chunksAux rest (i + 1) none := rfl

lemma aux_E_same (rest : List Tag) (t : String) (s i : Nat) :
    tags2chunksAux (Tag.E t :: rest) i (some (t, s))
      = ⟨t, s, i + 1⟩ :: tags2chunksAux rest (i + 1) none := by
  simp [tags2chunksAux]

lemma aux_E_diff (rest : List Tag) (t u : String) (s i : Nat) (h : u ≠ t) :
    tags2chunksAux (Tag.E t :: rest) i (some (u, s))
      = ⟨u, s, i⟩ :: ⟨t, i, i + 1⟩ :: tags2chunksAux rest (i + 1) none := by
  simp [tags2chunksAux, h]

lemma aux_S_none (rest : List Tag) (t : String) (i : Nat) :
    tags2chunksAux (Tag.S t :: rest) i none
      = ⟨t, i, i + 1⟩ :: tags2chunksAux rest (i + 1) none := rfl

lemma aux_S_some (rest : List Tag) (t u : String) (s i : Nat) :
    tags2chunksAux (Tag.S t :: rest) i (some (u, s))
      = ⟨u, s, i⟩ :: ⟨t, i, i + 1⟩ :: tags2chunksAux rest (i + 1) none := rfl

lemma tags2chunksAux_replicate_O :
    ∀ (k i : Nat), tags2chunksAux (List.replicate k Tag.O) i none = [] := by
  intro k
  induction k with
  | zero => intro i; rfl
  | succ k ih => intro i; rw [List.replicate_succ, aux_O_none]; exact ih (i + 1)

lemma tags2chunksAux_replicate_O_append :
    ∀ (k : Nat) (ts : List Tag) (i : Nat),
      tags2chunksAux (List.replicate k Tag.O ++ ts) i none = tags2chunksAux ts (i + k) none := by
  intro k
  induction k with
  | zero => intro ts i; simp
  | succ k ih =>
      intro ts i
      rw [List.replicate_succ, List.cons_append, aux_O_none, ih ts (i + 1)]
      congr 1
      omega

lemma tags2chunksAux_I_run :
    ∀ (m : Nat) (ts : List Tag) (t : String) (s i : Nat),
      tags2chunksAux (List.replicate m (Tag.I t) ++ ts) i (some (t, s))
        = tags2chunksAux ts (i + m) (some (t, s)) := by
  intro m
  induction m with
  | zero => intro ts t s i; simp
  | succ m ih =>
      intro ts t s i
      rw [List.replicate_succ, List.cons_append, aux_I_same, ih ts t s (i + 1)]
      congr 1
      omega

/-- When the tags laid out for a well-formed chunk list are scanned with an
open chunk in the state, the open chunk is closed at the current position
before the scan proceeds. -/
lemma tags2chunksAux_open (sch : Scheme) (pos L : Nat) (cs : List Chunk) (t : String) (s : Nat)
    (h : chunksOk pos L cs) :
    tags2chunksAux (chunks2tagsFrom sch pos L cs) pos (some (t, s))
      = ⟨t, s, pos⟩ :: tags2chunksAux (chunks2tagsFrom sch pos L cs) pos none := by
  cases cs with
  | nil =>
      simp only [chunks2tagsFrom]
      cases hk : L - pos with
      | zero => rw [List.replicate_zero, aux_nil_some, aux_nil_none]
      | succ k => rw [List.replicate_succ, aux_O_some, aux_O_none]
  | cons c rest =>
      obtain ⟨hpos, hlen, hrest⟩ := h
      simp only [chunks2tagsFrom]
      cases hk : c.cstart - pos with
      | succ k =>
          rw [List.replicate_succ, List.cons_append, List.cons_append, aux_O_some, aux_O_none]
      | zero =>
          rw [List.replicate_zero, List.nil_append]
          cases sch <;> simp only [chunkBodyTags]
          case BIOES | BMES =>
            split
            · rw [List.cons_append, aux_S_some, aux_S_none]
            · rw [List.cons_append, aux_B_some, aux_B_none]
          all_goals rw [List.cons_append, aux_B_some, aux_B_none]

/-- Scanning the laid-out tags of a well-formed chunk list recovers the
chunk list exactly. -/
lemma tags2chunksAux_chunks2tagsFrom (sch : Scheme) :
    ∀ (cs : List Chunk) (pos L : Nat), chunksOk pos L cs →
      tags2chunksAux (chunks2tagsFrom sch pos L cs) pos none = cs := by
  intro cs
  induction cs with
  | nil => intro pos L _; exact tags2chunksAux_replicate_O _ _
  | cons c rest ih =>
      intro pos L h
      obtain ⟨hpos, hlen, hrest⟩ := h
      simp only [chunks2tagsFrom, List.append_assoc]
      rw [tags2chunksAux_replicate_O_append]
      have hstart : pos + (c.cstart - pos) = c.cstart := by omega
      rw [hstart]
      have hc : (⟨c.ctype, c.cstart, c.cstop⟩ : Chunk) = c := rfl
      have hbody : tags2chunksAux
          (chunkBodyTags sch c.ctype (c.cstop - c.cstart) ++ chunks2tagsFrom sch c.cstop L rest)
          c.cstart none = c :: tags2chunksAux (chunks2tagsFrom sch c.cstop L rest) c.cstop none := by
        cases sch <;> simp only [chunkBodyTags]
        case BIO1 | BIO2 =>
          rw [List.cons_append, aux_B_none, tags2chunksAux_I_run]
          have hstop : c.cstart + 1 + (c.cstop - c.cstart - 1) = c.cstop := by omega
          rw [hstop, tags2chunksAux_open _ c.cstop L rest c.ctype c.cstart hrest, hc]
        case BIOES | BMES =>
          split
          next h1 =>
            have hstop : c.cstart + 1 = c.cstop := by omega
            rw [List.cons_append, aux_S_none, hstop, hc, List.nil_append]
          next h1 =>
            rw [List.cons_append, List.append_assoc, aux_B_none, tags2chunksAux_I_run]
            have hm : c.cstart + 1 + (c.cstop - c.cstart - 2) = c.cstop - 1 := by omega
            rw [hm, List.cons_append, aux_E_same]
            have hstop : c.cstop - 1 + 1 = c.cstop := by omega
            rw [hstop, hc, List.nil_append]
      rw [hbody, ih c.cstop L hrest]

/-- **C1**: for every supported scheme, sequence length `L`, and
well-formed (sorted, pairwise non-overlapping, in-range) chunk list `C`,
converting to tags with `chunks2tags` and back with `tags2chunks` yields
exactly `C`. -/
theorem chunks2tags_tags2chunks_roundtrip (sch : Scheme) (L : Nat) (cs : List Chunk)
    (h : chunksOk 0 L cs) : tags2chunks (chunks2tags sch L cs) = cs :=
  tags2chunksAux_chunks2tagsFrom sch cs 0 L h

/-- Witness for C1: the spec's BIO2 scenario, chunks `{(PER,1,3), (LOC,4,5)}`
over length 5. -/
theorem chunks2tags_tags2chunks_roundtrip_witness :
    chunksOk 0 5 [⟨"PER", 1, 3⟩, ⟨"LOC", 4, 5⟩] ∧
      tags2chunks (chunks2tags Scheme.BIO2 5 [⟨"PER", 1, 3⟩, ⟨"LOC", 4, 5⟩])
        = [⟨"PER", 1, 3⟩, ⟨"LOC", 4, 5⟩] := by
  have h : chunksOk 0 5 [⟨"PER", 1, 3⟩, ⟨"LOC", 4, 5⟩] := by norm_num [chunksOk]
  exact ⟨h, chunks2tags_tags2chunks_roundtrip Scheme.BIO2 5 _ h⟩

lemma chunksOk_mono : ∀ (cs : List Chunk) (pos pos' L : Nat),
    pos ≤ pos' → chunksOk pos' L cs → chunksOk pos L cs := by
  intro cs pos pos' L hle h
  cases cs with
  | nil => exact le_trans hle h
  | cons c rest => exact ⟨le_trans hle h.1, h.2.1, h.2.2⟩

/-- Invariant of the repair scan: starting at position `i` (with an open
chunk started at `s < i`, if any), the emitted chunks are in order,
non-overlapping and contained in `[s, L)` (resp. `[i, L)`), provided the
remaining tags fit below `L`. -/
lemma tags2chunksAux_ok : ∀ (tags : List Tag) (i L : Nat), i + tags.length ≤ L →
    chunksOk i L (tags2chunksAux tags i none) ∧
      ∀ (t : String) (s : Nat), s < i → chunksOk s L (tags2chunksAux tags i (some (t, s))) := by
  intro tags
  induction tags with
  | nil =>
      intro i L hL
      refine ⟨?_, ?_⟩
      · rw [aux_nil_none]; show i ≤ L; omega
      · intro t s hs
        rw [aux_nil_some]
        refine ⟨le_refl s, hs, ?_⟩
        show i ≤ L
        omega
  | cons tag rest ih =>
      intro i L hL
      have hL' : (i + 1) + rest.length ≤ L := by
        simp only [List.length_cons] at hL
        omega
      obtain ⟨ihn, ihs⟩ := ih (i + 1) L hL'
      cases tag with
      | O =>
          refine ⟨?_, ?_⟩
          · rw [aux_O_none]; exact chunksOk_mono _ i (i + 1) L (by omega) ihn
          · intro t s hs
            rw [aux_O_some]
            exact ⟨le_refl s, hs, chunksOk_mono _ i (i + 1) L (by omega) ihn⟩
      | B u =>
          refine ⟨?_, ?_⟩
          · rw [aux_B_none]
            exact ihs u i (Nat.lt_succ_self i)
          · intro t s hs
            rw [aux_B_some]
            exact ⟨le_refl s, hs, ihs u i (Nat.lt_succ_self i)⟩
      | I u =>
          refine ⟨?_, ?_⟩
          · rw [aux_I_none]
            exact ihs u i (Nat.lt_succ_self i)
          · intro t s hs
            by_cases hu : t = u
            · subst hu
              rw [aux_I_same]
              exact chunksOk_mono _ s s L (le_refl s) (ihs t s (by omega))
            · rw [aux_I_diff _ _ _ _ _ hu]
              exact ⟨le_refl s, hs, ihs u i (Nat.lt_succ_self i)⟩
      | E u =>
          refine ⟨?_, ?_⟩
          · rw [aux_E_none]
            exact ⟨le_refl i, Nat.lt_succ_self i, ihn⟩
          · intro t s hs
            by_cases hu : t = u
            · subst hu
              rw [aux_E_same]
              exact ⟨le_refl s, hs.trans (Nat.lt_succ_self i), ihn⟩
            · rw [aux_E_diff _ _ _ _ _ hu]
              exact ⟨le_refl s, hs, le_refl i, Nat.lt_succ_self i, ihn⟩
      | S u =>
          refine ⟨?_, ?_⟩
          · rw [aux_S_none]
            exact ⟨le_refl i, Nat.lt_succ_self i, ihn⟩
          · intro t s hs
            rw [aux_S_some]
            exact ⟨le_refl s, hs, le_refl i, Nat.lt_succ_self i, ihn⟩

/-- **C2**: `tags2chunks` is total (a Lean function) and, on every input
tag sequence — malformed ones included — returns a chunk list that is
ordered, pairwise non-overlapping, with every chunk satisfying
`0 ≤ start < stop ≤ length of the input`. -/
theorem tags2chunks_total_wellformed (tags : List Tag) :
    chunksOk 0 tags.length (tags2chunks tags) :=
  chunksOk_mono _ 0 0 tags.length (le_refl 0)
    (tags2chunksAux_ok tags 0 tags.length (by omega)).1

/-- **C7**: under BIOES, the malformed tags `[I-PER, I-PER, O, E-LOC]` are
repaired to exactly the chunks `(PER,0,2)` and `(LOC,3,4)`: the leading
inside marker starts a chunk, the lone end marker becomes a single-token
chunk. -/
theorem tags2chunks_malformed_bioes_scenario :
    tags2chunks [Tag.I "PER", Tag.I "PER", Tag.O, Tag.E "LOC"]
      = [⟨"PER", 0, 2⟩, ⟨"LOC", 3, 4⟩] := by
  decide

/-! ## Decoder configuration (`src/eznlp/sequence_tagging/decoder.py`) -/

/-- The closed set of scheme names the spec recognises. -/
def schemeNames : List String := ["BIO1", "BIO2", "BIOES", "BMES", "OntoNotes"]

/-- The translator object: `ChunksTagsTranslator(scheme=scheme)` stores the
scheme it was built from. -/
structure ChunksTagsTranslator where
  scheme : String
deriving DecidableEq, Repr

/-- Modelled from the spec: constructing a translator with an unrecognised
scheme name fails with a configuration error. -/
def mkChunksTagsTranslator (scheme : String) : Except String ChunksTagsTranslator :=
  if scheme ∈ schemeNames then Except.ok ⟨scheme⟩
  else Except.error ("Invalid scheme " ++ scheme)

/-- Python's `str.lower()` on the (ASCII) architecture names, embedded as
a character-wise lowercase map. -/
def strLower (s : String) : String := ⟨s.data.map Char.toLower⟩

/-- From `decoder.py` line 16: the architecture check of
`SequenceTaggingDecoderConfig.__init__`. -/
def validArch (arch : String) : Bool :=
  strLower arch = "softmax" || strLower arch = "crf"

/-- The configuration state: `arch`, the current `scheme`, and the
translator rebuilt by the `scheme` property setter. -/
structure SequenceTaggingDecoderConfig where
  arch : String
  scheme : String
  translator : ChunksTagsTranslator
deriving DecidableEq, Repr

/-- `SequenceTaggingDecoderConfig.__init__` (`decoder.py` lines 14-21):
the arch is validated first (`ValueError` on failure), then the scheme
assignment runs the property setter, which builds the translator (failing
on an unrecognised scheme name). -/
def mkSequenceTaggingDecoderConfig (arch scheme : String) :
    Except String SequenceTaggingDecoderConfig :=
  if validArch arch then
    (mkChunksTagsTranslator scheme).map fun tr => ⟨arch, scheme, tr⟩
  else Except.error ("Invalid decoder architecture " ++ arch)

/-- The `scheme` property setter (`decoder.py` lines 31-34): stores the new
scheme and rebuilds the translator from it as a side effect. -/
def setScheme (cfg : SequenceTaggingDecoderConfig) (s : String) :
    Except String SequenceTaggingDecoderConfig :=
  (mkChunksTagsTranslator s).map fun tr => { cfg with scheme := s, translator := tr }

/-- The decoder state copied from the config by
`SequenceTaggingDecoder.__init__` (`decoder.py` lines 61-67). -/
structure SequenceTaggingDecoder where
  scheme : String
  translator : ChunksTagsTranslator
deriving DecidableEq, Repr

/-- `SequenceTaggingDecoderConfig.instantiate` composed with
`SequenceTaggingDecoder.__init__`: the decoder copies the config's scheme
and translator. -/
def instantiateDecoder (cfg : SequenceTaggingDecoderConfig) : SequenceTaggingDecoder :=
  ⟨cfg.scheme, cfg.translator⟩

/-- **C8**: configuration construction succeeds exactly when the
architecture name lowercases to `softmax` or `crf` and the scheme name is
recognised; in particular every arch outside that set and every
unrecognised scheme name is a construction-time error, never a silent
default. -/
theorem mkSequenceTaggingDecoderConfig_ok_iff (arch scheme : String) :
    (mkSequenceTaggingDecoderConfig arch scheme).isOk = true
      ↔ (strLower arch = "softmax" ∨ strLower arch = "crf") ∧ scheme ∈ schemeNames := by
  by_cases ha : strLower arch = "softmax" ∨ strLower arch = "crf"
  · have hva : validArch arch = true := by
      unfold validArch
      rcases ha with h | h <;> simp [h]
    by_cases hs : scheme ∈ schemeNames
    · simp [mkSequenceTaggingDecoderConfig, hva, mkChunksTagsTranslator, hs, Except.map,
        Except.isOk, Except.toBool, ha]
    · simp [mkSequenceTaggingDecoderConfig, hva, mkChunksTagsTranslator, hs, Except.map,
        Except.isOk, Except.toBool]
  · have hva : validArch arch = false := by
      unfold validArch
      rw [not_or] at ha
      simp [ha.1, ha.2]
    simp [mkSequenceTaggingDecoderConfig, hva, Except.isOk, Except.toBool, ha]

/-- **C10**: the translator is kept in lockstep with the scheme: it holds
after construction, it is preserved by every assignment through the scheme
setter, and the instantiated decoder carries the config's scheme and
translator unchanged. -/
theorem config_translator_lockstep :
    (∀ (a s : String) (cfg : SequenceTaggingDecoderConfig),
        mkSequenceTaggingDecoderConfig a s = Except.ok cfg →
          cfg.translator = ⟨cfg.scheme⟩ ∧ mkChunksTagsTranslator cfg.scheme = Except.ok cfg.translator)
      ∧ (∀ (cfg : SequenceTaggingDecoderConfig) (s : String)
          (cfg' : SequenceTaggingDecoderConfig), setScheme cfg s = Except.ok cfg' →
          cfg'.translator = ⟨cfg'.scheme⟩ ∧ mkChunksTagsTranslator cfg'.scheme = Except.ok cfg'.translator)
      ∧ (∀ cfg : SequenceTaggingDecoderConfig,
          (instantiateDecoder cfg).scheme = cfg.scheme
            ∧ (instantiateDecoder cfg).translator = cfg.translator) := by
  refine ⟨?_, ?_, fun cfg => ⟨rfl, rfl⟩⟩
  · intro a s cfg h
    unfold mkSequenceTaggingDecoderConfig mkChunksTagsTranslator at h
    by_cases ha : validArch a
    · simp only [ha, if_true] at h
      by_cases hs : s ∈ schemeNames
      · simp only [hs, if_true, Except.map] at h
        cases h
        exact ⟨rfl, by simp [mkChunksTagsTranslator, hs]⟩
      · simp [hs, Except.map] at h
    · simp [ha] at h
  · intro cfg s cfg' h
    unfold setScheme mkChunksTagsTranslator at h
    by_cases hs : s ∈ schemeNames
    · simp only [hs, if_true, Except.map] at h
      cases h
      exact ⟨rfl, by simp [mkChunksTagsTranslator, hs]⟩
    · simp [hs, Except.map] at h

/-- Witness for C10: construct with arch `CRF` and scheme `BIOES`, then
set the scheme to `BIO2`; the lockstep invariant holds at each step. -/
theorem config_translator_lockstep_witness :
    (mkSequenceTaggingDecoderConfig "CRF" "BIOES"
        = Except.ok (⟨"CRF", "BIOES", ⟨"BIOES"⟩⟩ : SequenceTaggingDecoderConfig))
      ∧ (⟨"CRF", "BIOES", ⟨"BIOES"⟩⟩ : SequenceTaggingDecoderConfig).translator = ⟨"BIOES"⟩
      ∧ (setScheme ⟨"CRF", "BIOES", ⟨"BIOES"⟩⟩ "BIO2"
          = Except.ok (⟨"CRF", "BIO2", ⟨"BIO2"⟩⟩ : SequenceTaggingDecoderConfig))
      ∧ (⟨"CRF", "BIO2", ⟨"BIO2"⟩⟩ : SequenceTaggingDecoderConfig).translator = ⟨"BIO2"⟩ := by
  have h1 : mkSequenceTaggingDecoderConfig "CRF" "BIOES"
      = Except.ok (⟨"CRF", "BIOES", ⟨"BIOES"⟩⟩ : SequenceTaggingDecoderConfig) := by rfl
  have h2 : setScheme ⟨"CRF", "BIOES", ⟨"BIOES"⟩⟩ "BIO2"
      = Except.ok (⟨"CRF", "BIO2", ⟨"BIO2"⟩⟩ : SequenceTaggingDecoderConfig) := by rfl
  exact ⟨h1, (config_translator_lockstep.1 "CRF" "BIOES" _ h1).1,
    h2, (config_translator_lockstep.2.1 ⟨"CRF", "BIOES", ⟨"BIOES"⟩⟩ "BIO2" _ h2).1⟩

/-! ## CRF: path scores and Viterbi decoding

The CRF module (`crf.py`) is not present under `src/`; the definitions in
this section are modelled from the spec (§4.2): a transition structure
over the tag vocabulary extended with virtual BEGIN/END states, path
scores summing emissions and transitions, and Viterbi decoding with
first-encountered-maximum tie-breaking. -/

/-- Modelled from the spec: the CRF transition structure — pairwise
transition scores plus the BEGIN→tag and tag→END rows of the extended
`(V+2)×(V+2)` matrix. -/
structure CRF (α : Type) (V : Nat) where
  trans : Fin V → Fin V → α
  startTrans : Fin V → α
  endTrans : Fin V → α

def listMaxFrom {α ι : Type} [LinearOrder α] (f : ι → α) : α → List ι → α
  | acc, [] => acc
  | acc, i :: l => listMaxFrom f (max acc (f i)) l

def listArgmaxFrom {α ι : Type} [LinearOrder α] (f : ι → α) : ι → List ι → ι
  | b, [] => b
  | b, i :: l => listArgmaxFrom f (if f b < f i then i else b) l

/-- Maximum of `f` over all states. -/
def maxOver {α : Type} [LinearOrder α] {v : Nat} (f : Fin (v + 1) → α) : α :=
  listMaxFrom f (f 0) (List.finRange (v + 1))

/-- First index attaining the maximum of `f` (ties broken by the first
encountered maximum, matching the spec's deterministic tie-break). -/
def argmaxFirst {α : Type} [LinearOrder α] {v : Nat} (f : Fin (v + 1) → α) : Fin (v + 1) :=
  listArgmaxFrom f 0 (List.finRange (v + 1))

lemma listArgmaxFrom_attains {α ι : Type} [LinearOrder α] (f : ι → α) :
    ∀ (l : List ι) (b : ι), f (listArgmaxFrom f b l) = listMaxFrom f (f b) l := by
  intro l
  induction l with
  | nil => intro b; rfl
  | cons i l ih =>
      intro b
      show f (listArgmaxFrom f (if f b < f i then i else b) l) = listMaxFrom f (max (f b) (f i)) l
      rw [ih]
      congr 1
      by_cases h : f b < f i
      · rw [if_pos h, max_eq_right h.le]
      · rw [if_neg h, max_eq_left (not_lt.mp h)]

lemma le_listMaxFrom_acc {α ι : Type} [LinearOrder α] (f : ι → α) :
    ∀ (l : List ι) (acc : α), acc ≤ listMaxFrom f acc l := by
  intro l
  induction l with
  | nil => intro acc; exact le_refl acc
  | cons i l ih => intro acc; exact (le_max_left acc (f i)).trans (ih (max acc (f i)))

lemma le_listMaxFrom_mem {α ι : Type} [LinearOrder α] (f : ι → α) :
    ∀ (l : List ι) (acc : α) (i : ι), i ∈ l → f i ≤ listMaxFrom f acc l := by
  intro l
  induction l with
  | nil => intro acc i h; exact absurd h (List.not_mem_nil i)
  | cons j l ih =>
      intro acc i h
      rcases List.mem_cons.mp h with h | h
      · subst h; exact (le_max_right acc (f i)).trans (le_listMaxFrom_acc f l _)
      · exact ih _ i h

lemma argmaxFirst_attains {α : Type} [LinearOrder α] {v : Nat} (f : Fin (v + 1) → α) :
    f (argmaxFirst f) = maxOver f :=
  listArgmaxFrom_attains f _ 0

lemma le_maxOver {α : Type} [LinearOrder α] {v : Nat} (f : Fin (v + 1) → α) (i : Fin (v + 1)) :
    f i ≤ maxOver f :=
  le_listMaxFrom_mem f _ (f 0) i (List.mem_finRange i)

/-- Transition-plus-emission score accumulated along a path tail, given
the previous tag. -/
def tailScore {α : Type} [AddCommMonoid α] {V : Nat} (c : CRF α V) :
    Fin V → List ((Fin V → α) × Fin V) → α
  | _, [] => 0
  | prev, x :: rest => c.trans prev x.2 + x.1 x.2 + tailScore c x.2 rest

/-- The last tag of the nonempty path `y :: ys`. -/
def lastTag {V : Nat} (y : Fin V) (ys : List (Fin V)) : Fin V :=
  ys.foldl (fun _ z => z) y

/-- Modelled from the spec: the path score of a tag sequence — the
BEGIN→first transition, per-token emissions, consecutive-tag transitions,
and the last→END transition. -/
def pathScore {α : Type} [AddCommMonoid α] {V : Nat} (c : CRF α V)
    (es : List (Fin V → α)) (ys : List (Fin V)) : α :=
  match es, ys with
  | e :: es', y :: ys' =>
      c.startTrans y + e y + tailScore c y (es'.zip ys') + c.endTrans (lastTag y ys')
  | _, _ => 0

/-- One Viterbi step: the new score vector and the backpointer map
(first-encountered maxima). -/
def viterbiStep {α : Type} [LinearOrder α] [AddCommMonoid α] {v : Nat} (c : CRF α (v + 1))
    (d : Fin (v + 1) → α) (e : Fin (v + 1) → α) :
    (Fin (v + 1) → α) × (Fin (v + 1) → Fin (v + 1)) :=
  (fun j => maxOver (fun i => d i + c.trans i j) + e j,
   fun j => argmaxFirst (fun i => d i + c.trans i j))

/-- Run the Viterbi recurrence over the remaining emissions, returning the
final score vector and the backpointer history. -/
def viterbiRun {α : Type} [LinearOrder α] [AddCommMonoid α] {v : Nat} (c : CRF α (v + 1)) :
    (Fin (v + 1) → α) → List (Fin (v + 1) → α) →
      (Fin (v + 1) → α) × List (Fin (v + 1) → Fin (v + 1))
  | d, [] => (d, [])
  | d, e :: es =>
      ((viterbiRun c (viterbiStep c d e).1 es).1,
       (viterbiStep c d e).2 :: (viterbiRun c (viterbiStep c d e).1 es).2)

/-- Backtrack through the backpointer history from a final state,
returning the first tag and the rest of the path. -/
def btPath {v : Nat} : List (Fin (v + 1) → Fin (v + 1)) → Fin (v + 1) →
    Fin (v + 1) × List (Fin (v + 1))
  | [], j => (j, [])
  | bp :: bps, j => (bp (btPath bps j).1, (btPath bps j).1 :: (btPath bps j).2)

/-- Modelled from the spec: Viterbi decoding — the max-product recurrence
with backpointers; at the end, pick the best END-reachable state
(first-encountered maximum) and backtrack. -/
def viterbiDecode {α : Type} [LinearOrder α] [AddCommMonoid α] {v : Nat} (c : CRF α (v + 1)) :
    List (Fin (v + 1) → α) → List (Fin (v + 1))
  | [] => []
  | e :: es =>
      (btPath (viterbiRun c (fun j => c.startTrans j + e j) es).2
          (argmaxFirst fun j =>
            (viterbiRun c (fun j' => c.startTrans j' + e j') es).1 j + c.endTrans j)).1
        :: (btPath (viterbiRun c (fun j => c.startTrans j + e j) es).2
          (argmaxFirst fun j =>
            (viterbiRun c (fun j' => c.startTrans j' + e j') es).1 j + c.endTrans j)).2

lemma lastTag_cons {V : Nat} (y z : Fin V) (ys : List (Fin V)) :
    lastTag y (z :: ys) = lastTag z ys := rfl

/-- Any path's partial score is bounded by the Viterbi score of its final
state. -/
lemma viterbiRun_le {α : Type} [LinearOrderedAddCommMonoid α] {v : Nat} (c : CRF α (v + 1)) :
    ∀ (es : List (Fin (v + 1) → α)) (d : Fin (v + 1) → α) (y : Fin (v + 1))
      (ys : List (Fin (v + 1))), ys.length = es.length →
      d y + tailScore c y (es.zip ys) ≤ (viterbiRun c d es).1 (lastTag y ys) := by
  intro es
  induction es with
  | nil =>
      intro d y ys hlen
      cases ys with
      | nil => show d y + tailScore c y [] ≤ d y; rw [tailScore, add_zero]
      | cons z ys' => simp at hlen
  | cons e es ih =>
      intro d y ys hlen
      cases ys with
      | nil => simp at hlen
      | cons z ys' =>
          have hlen' : ys'.length = es.length := by simpa using hlen
          rw [lastTag_cons]
          show d y + tailScore c y ((e, z) :: es.zip ys')
            ≤ (viterbiRun c (viterbiStep c d e).1 es).1 (lastTag z ys')
          rw [tailScore, ← add_assoc, ← add_assoc]
          have h1 : d y + c.trans y z ≤ maxOver (fun i => d i + c.trans i z) :=
            le_maxOver (fun i => d i + c.trans i z) y
          have h2 : d y + c.trans y z + e z + tailScore c z (es.zip ys')
              ≤ (viterbiStep c d e).1 z + tailScore c z (es.zip ys') :=
            add_le_add_right (add_le_add_right h1 (e z)) _
          exact h2.trans (ih (viterbiStep c d e).1 z ys' hlen')

/-- The backtracked path attains the Viterbi score of its final state,
ends at the requested state, and has the length of the input. -/
lemma viterbiRun_attains {α : Type} [LinearOrderedAddCommMonoid α] {v : Nat} (c : CRF α (v + 1)) :
    ∀ (es : List (Fin (v + 1) → α)) (d : Fin (v + 1) → α) (j : Fin (v + 1)),
      d (btPath (viterbiRun c d es).2 j).1
          + tailScore c (btPath (viterbiRun c d es).2 j).1
              (es.zip (btPath (viterbiRun c d es).2 j).2)
        = (viterbiRun c d es).1 j
      ∧ lastTag (btPath (viterbiRun c d es).2 j).1 (btPath (viterbiRun c d es).2 j).2 = j
      ∧ (btPath (viterbiRun c d es).2 j).2.length = es.length := by
  intro es
  induction es with
  | nil =>
      intro d j
      refine ⟨?_, rfl, rfl⟩
      show d j + tailScore c j [] = d j
      rw [tailScore, add_zero]
  | cons e es ih =>
      intro d j
      obtain ⟨ha, hl, hn⟩ := ih (viterbiStep c d e).1 j
      refine ⟨?_, ?_, ?_⟩
      · show d ((viterbiStep c d e).2 (btPath (viterbiRun c (viterbiStep c d e).1 es).2 j).1)
            + tailScore c ((viterbiStep c d e).2 (btPath (viterbiRun c (viterbiStep c d e).1 es).2 j).1)
                ((e, (btPath (viterbiRun c (viterbiStep c d e).1 es).2 j).1)
                  :: es.zip (btPath (viterbiRun c (viterbiStep c d e).1 es).2 j).2)
          = (viterbiRun c (viterbiStep c d e).1 es).1 j
        rw [tailScore, ← add_assoc, ← add_assoc]
        have hb : d ((viterbiStep c d e).2 (btPath (viterbiRun c (viterbiStep c d e).1 es).2 j).1)
            + c.trans ((viterbiStep c d e).2 (btPath (viterbiRun c (viterbiStep c d e).1 es).2 j).1)
              (btPath (viterbiRun c (viterbiStep c d e).1 es).2 j).1
            = maxOver (fun i => d i
                + c.trans i (btPath (viterbiRun c (viterbiStep c d e).1 es).2 j).1) :=
          argmaxFirst_attains
            (fun i => d i + c.trans i (btPath (viterbiRun c (viterbiStep c d e).1 es).2 j).1)
        rw [hb]
        exact ha
      · show lastTag ((viterbiStep c d e).2 (btPath (viterbiRun c (viterbiStep c d e).1 es).2 j).1)
            ((btPath (viterbiRun c (viterbiStep c d e).1 es).2 j).1
              :: (btPath (viterbiRun c (viterbiStep c d e).1 es).2 j).2) = j
        rw [lastTag_cons]
        exact hl
      · show ((btPath (viterbiRun c (viterbiStep c d e).1 es).2 j).1
              :: (btPath (viterbiRun c (viterbiStep c d e).1 es).2 j).2).length = es.length + 1
        rw [List.length_cons, hn]

/-- `viterbiDecode` returns a sequence with the input's length. -/
lemma viterbiDecode_length {α : Type} [LinearOrderedAddCommMonoid α] {v : Nat}
    (c : CRF α (v + 1)) (es : List (Fin (v + 1) → α)) :
    (viterbiDecode c es).length = es.length := by
  cases es with
  | nil => rfl
  | cons e es =>
      rw [viterbiDecode, List.length_cons, List.length_cons]
      exact congrArg (· + 1) (viterbiRun_attains c es _ _).2.2

/-- Viterbi optimality on a nonempty emission list: the decoded path's
score dominates every path of the same length. -/
lemma viterbiDecode_optimal {α : Type} [LinearOrderedAddCommMonoid α] {v : Nat}
    (c : CRF α (v + 1)) (e : Fin (v + 1) → α) (es : List (Fin (v + 1) → α))
    (ys : List (Fin (v + 1))) (hlen : ys.length = es.length + 1) :
    pathScore c (e :: es) ys ≤ pathScore c (e :: es) (viterbiDecode c (e :: es)) := by
  cases ys with
  | nil => simp at hlen
  | cons y ys' =>
      have hlen' : ys'.length = es.length := by simpa using hlen
      obtain ⟨ha, hl, hn⟩ := viterbiRun_attains c es (fun j => c.startTrans j + e j)
        (argmaxFirst fun j =>
          (viterbiRun c (fun j' => c.startTrans j' + e j') es).1 j + c.endTrans j)
      rw [viterbiDecode]
      rw [pathScore, pathScore, hl]
      have hdec : c.startTrans (btPath (viterbiRun c (fun j => c.startTrans j + e j) es).2
              (argmaxFirst fun j =>
                (viterbiRun c (fun j' => c.startTrans j' + e j') es).1 j + c.endTrans j)).1
            + e (btPath (viterbiRun c (fun j => c.startTrans j + e j) es).2
              (argmaxFirst fun j =>
                (viterbiRun c (fun j' => c.startTrans j' + e j') es).1 j + c.endTrans j)).1
            + tailScore c (btPath (viterbiRun c (fun j => c.startTrans j + e j) es).2
              (argmaxFirst fun j =>
                (viterbiRun c (fun j' => c.startTrans j' + e j') es).1 j + c.endTrans j)).1
              (es.zip (btPath (viterbiRun c (fun j => c.startTrans j + e j) es).2
                (argmaxFirst fun j =>
                  (viterbiRun c (fun j' => c.startTrans j' + e j') es).1 j + c.endTrans j)).2)
          = (viterbiRun c (fun j => c.startTrans j + e j) es).1
              (argmaxFirst fun j =>
                (viterbiRun c (fun j' => c.startTrans j' + e j') es).1 j + c.endTrans j) := ha
      rw [hdec]
      have hub : c.startTrans y + e y + tailScore c y (es.zip ys') + c.endTrans (lastTag y ys')
          ≤ (viterbiRun c (fun j => c.startTrans j + e j) es).1 (lastTag y ys')
            + c.endTrans (lastTag y ys') :=
        add_le_add_right (viterbiRun_le c es (fun j => c.startTrans j + e j) y ys' hlen') _
      refine hub.trans ?_
      have := le_maxOver
        (fun j => (viterbiRun c (fun j' => c.startTrans j' + e j') es).1 j + c.endTrans j)
        (lastTag y ys')
      rw [argmaxFirst_attains
        (fun j => (viterbiRun c (fun j' => c.startTrans j' + e j') es).1 j + c.endTrans j)]
      exact this

/-! ## Masked decoding and batch decoding -/

/-- The true (unpadded) length encoded by a right-padded mask: the length
of its leading `true` prefix. -/
def trueLenOf (mask : List Bool) : Nat := (mask.takeWhile id).length

lemma trueLenOf_replicate_append (n k : Nat) :
    trueLenOf (List.replicate n true ++ List.replicate k false) = n := by
  induction n with
  | zero =>
      cases k with
      | zero => rfl
      | succ k => simp [trueLenOf, List.takeWhile]
  | succ n ih =>
      rw [List.replicate_succ, List.cons_append]
      show (List.takeWhile id (true :: (List.replicate n true ++ List.replicate k false))).length
        = n + 1
      rw [show List.takeWhile id (true :: (List.replicate n true ++ List.replicate k false))
          = true :: List.takeWhile id (List.replicate n true ++ List.replicate k false) from rfl]
      rw [List.length_cons]
      exact congrArg (· + 1) ih

lemma trueLenOf_replicate (n : Nat) : trueLenOf (List.replicate n true) = n := by
  have := trueLenOf_replicate_append n 0
  simpa using this

/-- Modelled from the spec: CRF decode of one item — Viterbi over the
true-length prefix of the emissions; padded positions are dropped, not
decoded. -/
def crfDecode {α : Type} [LinearOrder α] [AddCommMonoid α] {v : Nat} (c : CRF α (v + 1))
    (es : List (Fin (v + 1) → α)) (mask : List Bool) : List (Fin (v + 1)) :=
  viterbiDecode c (es.take (trueLenOf mask))

/-- A batch item: per-token emission scores, gold tags, and the mask
(`decoder.py` passes these as `logits`, `batch_tag_ids`, `batch.tok_mask`). -/
abbrev BatchItem (α : Type) (v : Nat) : Type :=
  List (Fin (v + 1) → α) × List (Fin (v + 1)) × List Bool

/-- `SequenceTaggingCRFDecoder.decode` (`decoder.py` lines 111-117): one
variable-length tag sequence per batch item, via the CRF. -/
def batchCrfDecode {α : Type} [LinearOrder α] [AddCommMonoid α] {v : Nat} (c : CRF α (v + 1))
    (items : List (BatchItem α v)) : List (List (Fin (v + 1))) :=
  items.map fun it => crfDecode c it.1 it.2.2

/-- `SequenceTaggingSoftMaxDecoder.decode` (`decoder.py` lines 86-92):
per-token argmax of the logits, unpadded to the item's true length. -/
def softmaxDecodeItem {α : Type} [LinearOrder α] {v : Nat}
    (logits : List (Fin (v + 1) → α)) (len : Nat) : List (Fin (v + 1)) :=
  (logits.take len).map argmaxFirst

/-- The softmax decoder over a batch, dropping padded positions via each
item's true length. -/
def batchSoftmaxDecode {α : Type} [LinearOrder α] {v : Nat}
    (items : List (BatchItem α v)) : List (List (Fin (v + 1))) :=
  items.map fun it => softmaxDecodeItem it.1 (trueLenOf it.2.2)

/-- **C3**: `decode` returns a tag sequence over the true-length prefix
whose path score is maximal among all tag sequences of that length (the
fixed first-encountered-maximum tie-break in `argmaxFirst` makes the
result deterministic). -/
theorem crf_decode_optimal {v : Nat} (c : CRF ℝ (v + 1)) (es : List (Fin (v + 1) → ℝ))
    (mask : List Bool) (n : Nat) (hn : trueLenOf mask = n) (h0 : 0 < n) (hle : n ≤ es.length)
    (ys : List (Fin (v + 1))) (hlen : ys.length = n) :
    pathScore c (es.take n) ys ≤ pathScore c (es.take n) (crfDecode c es mask) := by
  have htk : (es.take n).length = n := by
    rw [List.length_take]
    omega
  rw [crfDecode, hn]
  cases hsplit : es.take n with
  | nil => rw [hsplit] at htk; simp at htk; omega
  | cons e2 es2 =>
      rw [hsplit] at htk
      exact viterbiDecode_optimal c e2 es2 ys (by simp at htk; omega)

/-- Witness for C3: a one-token, one-tag instance. -/
theorem crf_decode_optimal_witness :
    pathScore (⟨fun _ _ => 0, fun _ => 0, fun _ => 0⟩ : CRF ℝ 1)
        ([fun _ => 0].take 1) [0]
      ≤ pathScore (⟨fun _ _ => 0, fun _ => 0, fun _ => 0⟩ : CRF ℝ 1) ([fun _ => 0].take 1)
          (crfDecode (⟨fun _ _ => 0, fun _ => 0, fun _ => 0⟩ : CRF ℝ 1) [fun _ => 0] [true]) :=
  crf_decode_optimal (⟨fun _ _ => 0, fun _ => 0, fun _ => 0⟩ : CRF ℝ 1) [fun _ => 0] [true] 1
    rfl one_pos (le_refl 1) [0] rfl

/-- **C6**: both decoders return, per batch item, a tag sequence whose
length is that item's true (unpadded) length — the batch result is ragged
and contains no padded positions. -/
theorem decode_output_true_length {v : Nat} (c : CRF ℝ (v + 1)) (items : List (BatchItem ℝ v))
    (h : ∀ it ∈ items, trueLenOf it.2.2 ≤ it.1.length) :
    (batchCrfDecode c items).map List.length = items.map (fun it => trueLenOf it.2.2)
      ∧ (batchSoftmaxDecode items).map List.length = items.map (fun it => trueLenOf it.2.2) := by
  induction items with
  | nil => exact ⟨rfl, rfl⟩
  | cons it items ih =>
      have hit := h it (List.mem_cons_self it items)
      obtain ⟨ih1, ih2⟩ := ih (fun x hx => h x (List.mem_cons_of_mem it hx))
      constructor
      · rw [batchCrfDecode, List.map_cons, List.map_cons, List.map_cons]
        rw [batchCrfDecode] at ih1
        rw [ih1]
        congr 1
        rw [crfDecode, viterbiDecode_length, List.length_take]
        omega
      · rw [batchSoftmaxDecode, List.map_cons, List.map_cons, List.map_cons]
        rw [batchSoftmaxDecode] at ih2
        rw [ih2]
        congr 1
        rw [softmaxDecodeItem, List.length_map, List.length_take]
        omega

/-- Witness for C6: a singleton batch with one real position and one
padded position. -/
theorem decode_output_true_length_witness :
    (batchCrfDecode (⟨fun _ _ => 0, fun _ => 0, fun _ => 0⟩ : CRF ℝ 1)
          ([([fun _ => 0, fun _ => 0], [0, 0], [true, false])] : List (BatchItem ℝ 0))).map
        List.length
        = ([([fun _ => 0, fun _ => 0], [0, 0], [true, false])] : List (BatchItem ℝ 0)).map
            (fun it => trueLenOf it.2.2)
      ∧ (batchSoftmaxDecode
            ([([fun _ => 0, fun _ => 0], [0, 0], [true, false])] : List (BatchItem ℝ 0))).map
          List.length
          = ([([fun _ => 0, fun _ => 0], [0, 0], [true, false])] : List (BatchItem ℝ 0)).map
              (fun it => trueLenOf it.2.2) :=
  decode_output_true_length (⟨fun _ _ => 0, fun _ => 0, fun _ => 0⟩ : CRF ℝ 1)
    ([([fun _ => 0, fun _ => 0], [0, 0], [true, false])] : List (BatchItem ℝ 0))
    (by
      intro it hit
      simp only [List.mem_singleton] at hit
      subst hit
      show trueLenOf [true, false] ≤ 2
      rw [show trueLenOf [true, false] = 1 from rfl]
      omega)

/-! ## CRF forward algorithm: partition function -/

/-- Numerically the spec requires a stable log-sum-exp; over the reals it
is the exact `log ∘ sum ∘ exp`. -/
noncomputable def logSumExp (l : List ℝ) : ℝ := Real.log (l.map Real.exp).sum

lemma sum_map_exp_pos (l : List ℝ) (h : l ≠ []) : 0 < (l.map Real.exp).sum := by
  refine List.sum_pos _ (fun x hx => ?_) (by simpa using h)
  obtain ⟨y, _, rfl⟩ := List.mem_map.mp hx
  exact Real.exp_pos y

lemma exp_logSumExp (l : List ℝ) (h : l ≠ []) :
    Real.exp (logSumExp l) = (l.map Real.exp).sum :=
  Real.exp_log (sum_map_exp_pos l h)

/-- Modelled from the spec: one step of the forward algorithm —
log-sum-exp over the previous score vector plus transitions, plus the
current emission. -/
noncomputable def alphaStep {v : Nat} (c : CRF ℝ (v + 1)) (a e : Fin (v + 1) → ℝ) :
    Fin (v + 1) → ℝ :=
  fun j => logSumExp ((List.finRange (v + 1)).map fun i => a i + c.trans i j) + e j

/-- Fold of the forward recurrence over the remaining emissions. -/
noncomputable def alphaRun {v : Nat} (c : CRF ℝ (v + 1)) :
    (Fin (v + 1) → ℝ) → List (Fin (v + 1) → ℝ) → Fin (v + 1) → ℝ
  | a, [] => a
  | a, e :: es => alphaRun c (alphaStep c a e) es

/-- Modelled from the spec: the partition-function score computed by the
forward algorithm, marginalising into the END state at the sequence end. -/
noncomputable def logZ {v : Nat} (c : CRF ℝ (v + 1)) : List (Fin (v + 1) → ℝ) → ℝ
  | [] => 0
  | e :: es =>
      logSumExp ((List.finRange (v + 1)).map fun j =>
        alphaRun c (fun i => c.startTrans i + e i) es j + c.endTrans j)

/-- All nonempty tag sequences, represented as (first tag, remaining
tags) with `n` remaining tags. -/
def pathsFrom (v : Nat) : Nat → List (Fin (v + 1) × List (Fin (v + 1)))
  | 0 => (List.finRange (v + 1)).map fun j => (j, [])
  | n + 1 => (List.finRange (v + 1)).flatMap fun y0 =>
      (pathsFrom v n).map fun p => (y0, p.1 :: p.2)

/-- The partition function as the spec defines it semantically: the log of
the sum, over all tag sequences of the input length, of the exponentiated
path score. -/
noncomputable def specLogZ {v : Nat} (c : CRF ℝ (v + 1)) :
    List (Fin (v + 1) → ℝ) → ℝ
  | [] => 0
  | e :: es =>
      Real.log (((pathsFrom v es.length).map fun p =>
        Real.exp (pathScore c (e :: es) (p.1 :: p.2))).sum)

lemma sum_map_addF {γ : Type} (l : List γ) (f g : γ → ℝ) :
    (l.map fun k => f k + g k).sum = (l.map f).sum + (l.map g).sum := by
  induction l with
  | nil => simp
  | cons k l ih => simp only [List.map_cons, List.sum_cons, ih]; ring

lemma list_sum_swap {β γ : Type} (l1 : List β) (l2 : List γ) (F : β → γ → ℝ) :
    (l1.map fun i => (l2.map fun k => F i k).sum).sum
      = (l2.map fun k => (l1.map fun i => F i k).sum).sum := by
  induction l1 with
  | nil => simp
  | cons i l1 ih =>
      simp only [List.map_cons, List.sum_cons, ih, ← sum_map_addF]

lemma sum_map_flatMap {β γ : Type} (l : List β) (f : β → List γ) (g : γ → ℝ) :
    ((l.flatMap f).map g).sum = (l.map fun b => ((f b).map g).sum).sum := by
  induction l with
  | nil => rfl
  | cons b l ih => simp [ih]

lemma finRange_map_ne_nil {v : Nat} {β : Type} (f : Fin (v + 1) → β) :
    (List.finRange (v + 1)).map f ≠ [] :=
  List.ne_nil_of_length_pos (by simp)

lemma map_sum_congr {β : Type} (l : List β) (f g : β → ℝ) (h : ∀ b, f b = g b) :
    (l.map f).sum = (l.map g).sum := by
  rw [show f = g from funext h]

/-- Expansion of one forward step inside an exponentiated weighted term. -/
lemma alphaStep_term_expand {v : Nat} (c : CRF ℝ (v + 1)) (a e : Fin (v + 1) → ℝ)
    (g : Fin (v + 1) → ℝ) (es : List (Fin (v + 1) → ℝ))
    (p : Fin (v + 1) × List (Fin (v + 1))) :
    Real.exp (alphaStep c a e p.1 + tailScore c p.1 (es.zip p.2)) * g (lastTag p.1 p.2)
      = ((List.finRange (v + 1)).map fun i =>
          Real.exp (a i + tailScore c i ((e :: es).zip (p.1 :: p.2)))
            * g (lastTag i (p.1 :: p.2))).sum := by
  have hz : ∀ i : Fin (v + 1),
      tailScore c i ((e :: es).zip (p.1 :: p.2))
        = c.trans i p.1 + e p.1 + tailScore c p.1 (es.zip p.2) := fun i => rfl
  have hlast : ∀ i : Fin (v + 1), lastTag i (p.1 :: p.2) = lastTag p.1 p.2 := fun i => rfl
  calc Real.exp (alphaStep c a e p.1 + tailScore c p.1 (es.zip p.2)) * g (lastTag p.1 p.2)
      = (((List.finRange (v + 1)).map fun i => a i + c.trans i p.1).map Real.exp).sum
          * (Real.exp (e p.1 + tailScore c p.1 (es.zip p.2)) * g (lastTag p.1 p.2)) := by
        rw [alphaStep, add_assoc, Real.exp_add,
          exp_logSumExp _ (finRange_map_ne_nil _), Real.exp_add, mul_assoc]
    _ = ((List.finRange (v + 1)).map fun i =>
          Real.exp (a i + c.trans i p.1)
            * (Real.exp (e p.1 + tailScore c p.1 (es.zip p.2)) * g (lastTag p.1 p.2))).sum := by
        rw [List.map_map, List.sum_map_mul_right]
        rfl
    _ = ((List.finRange (v + 1)).map fun i =>
          Real.exp (a i + tailScore c i ((e :: es).zip (p.1 :: p.2)))
            * g (lastTag i (p.1 :: p.2))).sum := by
        refine map_sum_congr _ _ _ (fun i => ?_)
        rw [hz i, hlast i, ← mul_assoc, ← Real.exp_add]
        congr 2
        ring

/-- Forward-algorithm correctness in exponentiated, weighted form: the
sum, over all states, of the exponentiated forward score times a final
weight equals the sum over all paths of the exponentiated path weight. -/
lemma alphaRun_exp_weight {v : Nat} (c : CRF ℝ (v + 1)) :
    ∀ (es : List (Fin (v + 1) → ℝ)) (a g : Fin (v + 1) → ℝ),
      ((List.finRange (v + 1)).map fun j => Real.exp (alphaRun c a es j) * g j).sum
        = ((pathsFrom v es.length).map fun p =>
            Real.exp (a p.1 + tailScore c p.1 (es.zip p.2)) * g (lastTag p.1 p.2)).sum := by
  intro es
  induction es with
  | nil =>
      intro a g
      show ((List.finRange (v + 1)).map fun j => Real.exp (alphaRun c a [] j) * g j).sum
        = (((List.finRange (v + 1)).map fun j => (j, ([] : List (Fin (v + 1))))).map fun p =>
            Real.exp (a p.1 + tailScore c p.1 (([] : List (Fin (v + 1) → ℝ)).zip p.2))
              * g (lastTag p.1 p.2)).sum
      rw [List.map_map]
      refine map_sum_congr _ _ _ (fun j => ?_)
      show Real.exp (a j) * g j = Real.exp (a j + tailScore c j []) * g (lastTag j [])
      rw [tailScore, add_zero]
      rfl
  | cons e es ih =>
      intro a g
      have h1 : ((List.finRange (v + 1)).map fun j =>
            Real.exp (alphaRun c a (e :: es) j) * g j).sum
          = ((List.finRange (v + 1)).map fun j =>
            Real.exp (alphaRun c (alphaStep c a e) es j) * g j).sum := rfl
      rw [h1, ih (alphaStep c a e) g]
      have h2 : ((pathsFrom v es.length).map fun p =>
            Real.exp (alphaStep c a e p.1 + tailScore c p.1 (es.zip p.2))
              * g (lastTag p.1 p.2)).sum
          = ((pathsFrom v es.length).map fun p => ((List.finRange (v + 1)).map fun i =>
              Real.exp (a i + tailScore c i ((e :: es).zip (p.1 :: p.2)))
                * g (lastTag i (p.1 :: p.2))).sum).sum :=
        map_sum_congr _ _ _ (fun p => alphaStep_term_expand c a e g es p)
      rw [h2, list_sum_swap]
      rw [show pathsFrom v (e :: es).length
          = (List.finRange (v + 1)).flatMap (fun y0 =>
              (pathsFrom v es.length).map fun p => (y0, p.1 :: p.2)) from rfl]
      rw [sum_map_flatMap]
      refine map_sum_congr _ _ _ (fun i => ?_)
      rw [List.map_map]
      rfl

/-- The forward-algorithm partition score equals the log-sum-exp over all
tag sequences of the path score. -/
lemma logZ_eq_specLogZ {v : Nat} (c : CRF ℝ (v + 1)) (e : Fin (v + 1) → ℝ)
    (es : List (Fin (v + 1) → ℝ)) : logZ c (e :: es) = specLogZ c (e :: es) := by
  rw [logZ, specLogZ, logSumExp]
  refine congrArg Real.log ?_
  rw [List.map_map]
  have h1 : ((List.finRange (v + 1)).map
        (Real.exp ∘ fun j => alphaRun c (fun i => c.startTrans i + e i) es j + c.endTrans j)).sum
      = ((List.finRange (v + 1)).map fun j =>
          Real.exp (alphaRun c (fun i => c.startTrans i + e i) es j)
            * Real.exp (c.endTrans j)).sum := by
    refine map_sum_congr _ _ _ (fun j => ?_)
    exact Real.exp_add _ _
  rw [h1, alphaRun_exp_weight c es (fun i => c.startTrans i + e i) (fun j => Real.exp (c.endTrans j))]
  refine map_sum_congr _ _ _ (fun p => ?_)
  rw [← Real.exp_add]
  rfl

/-! ## Masked CRF loss -/

/-- Modelled from the spec: one masked forward step — a padding position
(mask `false`) leaves the score vector unchanged, contributing exactly
zero to the partition function. -/
noncomputable def alphaStepM {v : Nat} (c : CRF ℝ (v + 1)) (a : Fin (v + 1) → ℝ)
    (x : (Fin (v + 1) → ℝ) × Bool) : Fin (v + 1) → ℝ :=
  if x.2 then alphaStep c a x.1 else a

/-- Masked forward fold over zipped (emission, mask) pairs. -/
noncomputable def alphaRunM {v : Nat} (c : CRF ℝ (v + 1)) (a : Fin (v + 1) → ℝ)
    (l : List ((Fin (v + 1) → ℝ) × Bool)) : Fin (v + 1) → ℝ :=
  l.foldl (alphaStepM c) a

/-- Modelled from the spec: the masked partition-function score; the first
position is real (an all-padding sequence is a caller error per the
spec). -/
noncomputable def logZM {v : Nat} (c : CRF ℝ (v + 1)) (es : List (Fin (v + 1) → ℝ))
    (mask : List Bool) : ℝ :=
  match es, mask with
  | e :: es', _ :: ms =>
      logSumExp ((List.finRange (v + 1)).map fun j =>
        alphaRunM c (fun i => c.startTrans i + e i) (es'.zip ms) j + c.endTrans j)
  | _, _ => 0

/-- Modelled from the spec: one masked gold-score step, carrying the
previous real tag and the accumulated score; a padding position
contributes exactly zero. -/
noncomputable def goldStepM {v : Nat} (c : CRF ℝ (v + 1)) (s : Fin (v + 1) × ℝ)
    (x : (Fin (v + 1) → ℝ) × Fin (v + 1) × Bool) : Fin (v + 1) × ℝ :=
  if x.2.2 then (x.2.1, s.2 + c.trans s.1 x.2.1 + x.1 x.2.1) else s

/-- Modelled from the spec: the masked gold path score — emissions and
transitions over the masked prefix plus BEGIN and END transitions. -/
noncomputable def goldScoreM {v : Nat} (c : CRF ℝ (v + 1)) (es : List (Fin (v + 1) → ℝ))
    (ys : List (Fin (v + 1))) (mask : List Bool) : ℝ :=
  match es, ys, mask with
  | e :: es', y :: ys', _ :: ms =>
      ((es'.zip (ys'.zip ms)).foldl (goldStepM c) (y, c.startTrans y + e y)).2
        + c.endTrans ((es'.zip (ys'.zip ms)).foldl (goldStepM c) (y, c.startTrans y + e y)).1
  | _, _, _ => 0

/-- Modelled from the spec: per-item CRF loss = partition-function score
minus gold path score. -/
noncomputable def crfItemLoss {v : Nat} (c : CRF ℝ (v + 1)) (es : List (Fin (v + 1) → ℝ))
    (ys : List (Fin (v + 1))) (mask : List Bool) : ℝ :=
  logZM c es mask - goldScoreM c es ys mask

/-- `SequenceTaggingCRFDecoder.forward` (`decoder.py` lines 102-108): one
scalar loss per batch item, in batch order (the vectorised `torch` call
computes exactly the per-item losses). -/
noncomputable def batchCrfForward {v : Nat} (c : CRF ℝ (v + 1))
    (items : List (BatchItem ℝ v)) : List ℝ :=
  items.map fun it => crfItemLoss c it.1 it.2.1 it.2.2

lemma alphaRunM_trues {v : Nat} (c : CRF ℝ (v + 1)) :
    ∀ (es : List (Fin (v + 1) → ℝ)) (a : Fin (v + 1) → ℝ),
      alphaRunM c a (es.zip (List.replicate es.length true)) = alphaRun c a es := by
  intro es
  induction es with
  | nil => intro a; rfl
  | cons e es ih =>
      intro a
      show alphaRunM c a ((e :: es).zip (List.replicate (es.length + 1) true))
        = alphaRun c (alphaStep c a e) es
      rw [List.replicate_succ]
      show alphaRunM c (alphaStepM c a (e, true)) (es.zip (List.replicate es.length true))
        = alphaRun c (alphaStep c a e) es
      rw [show alphaStepM c a (e, true) = alphaStep c a e from rfl]
      exact ih (alphaStep c a e)

lemma alphaRunM_falses {v : Nat} (c : CRF ℝ (v + 1)) :
    ∀ (es : List (Fin (v + 1) → ℝ)) (k : Nat) (a : Fin (v + 1) → ℝ),
      alphaRunM c a (es.zip (List.replicate k false)) = a := by
  intro es
  induction es with
  | nil => intro k a; rfl
  | cons e es ih =>
      intro k a
      cases k with
      | zero => rfl
      | succ k =>
          rw [List.replicate_succ]
          show alphaRunM c (alphaStepM c a (e, false)) (es.zip (List.replicate k false)) = a
          rw [show alphaStepM c a (e, false) = a from rfl]
          exact ih k a

/-- The masked partition over a right-padded mask equals the unmasked
partition of the true-length prefix: padding contributes exactly zero. -/
lemma logZM_canonical {v : Nat} (c : CRF ℝ (v + 1)) (e : Fin (v + 1) → ℝ)
    (esPre esPad : List (Fin (v + 1) → ℝ)) :
    logZM c (e :: (esPre ++ esPad))
        (true :: (List.replicate esPre.length true ++ List.replicate esPad.length false))
      = logZ c (e :: esPre) := by
  rw [logZM, logZ]
  have hsplit : alphaRunM c (fun i => c.startTrans i + e i)
      ((esPre ++ esPad).zip
        (List.replicate esPre.length true ++ List.replicate esPad.length false))
      = alphaRun c (fun i => c.startTrans i + e i) esPre := by
    rw [List.zip_append (by simp), alphaRunM, List.foldl_append]
    rw [show (esPre.zip (List.replicate esPre.length true)).foldl (alphaStepM c)
          (fun i => c.startTrans i + e i)
        = alphaRunM c (fun i => c.startTrans i + e i)
            (esPre.zip (List.replicate esPre.length true)) from rfl]
    rw [alphaRunM_trues]
    rw [show (esPad.zip (List.replicate esPad.length false)).foldl (alphaStepM c)
          (alphaRun c (fun i => c.startTrans i + e i) esPre)
        = alphaRunM c (alphaRun c (fun i => c.startTrans i + e i) esPre)
            (esPad.zip (List.replicate esPad.length false)) from rfl]
    rw [alphaRunM_falses]
  rw [hsplit]

lemma goldRunM_trues {v : Nat} (c : CRF ℝ (v + 1)) :
    ∀ (es : List (Fin (v + 1) → ℝ)) (ys : List (Fin (v + 1))) (y : Fin (v + 1)) (acc : ℝ),
      ys.length = es.length →
      (es.zip (ys.zip (List.replicate es.length true))).foldl (goldStepM c) (y, acc)
        = (lastTag y ys, acc + tailScore c y (es.zip ys)) := by
  intro es
  induction es with
  | nil =>
      intro ys y acc hlen
      cases ys with
      | nil => show (y, acc) = (y, acc + tailScore c y []); rw [tailScore, add_zero]
      | cons z ys' => simp at hlen
  | cons e es ih =>
      intro ys y acc hlen
      cases ys with
      | nil => simp at hlen
      | cons z ys' =>
          have hlen' : ys'.length = es.length := by simpa using hlen
          show ((e, z, true) :: es.zip (ys'.zip (List.replicate es.length true))).foldl
              (goldStepM c) (y, acc)
            = (lastTag y (z :: ys'), acc + tailScore c y ((e, z) :: es.zip ys'))
          rw [List.foldl_cons,
            show goldStepM c (y, acc) (e, z, true) = (z, acc + c.trans y z + e z) from rfl,
            ih ys' z (acc + c.trans y z + e z) hlen', lastTag_cons, tailScore]
          refine congrArg _ ?_
          ring

lemma goldRunM_falses {v : Nat} (c : CRF ℝ (v + 1)) :
    ∀ (es : List (Fin (v + 1) → ℝ)) (ys : List (Fin (v + 1))) (k : Nat)
      (st : Fin (v + 1) × ℝ),
      (es.zip (ys.zip (List.replicate k false))).foldl (goldStepM c) st = st := by
  intro es
  induction es with
  | nil => intro ys k st; rfl
  | cons e es ih =>
      intro ys k st
      cases ys with
      | nil => rfl
      | cons z ys' =>
          cases k with
          | zero => rfl
          | succ k =>
              rw [List.replicate_succ]
              show (es.zip (ys'.zip (List.replicate k false))).foldl (goldStepM c)
                  (goldStepM c st (e, z, false)) = st
              rw [show goldStepM c st (e, z, false) = st from rfl]
              exact ih ys' k st

/-- The masked gold score over a right-padded mask equals the path score
of the true-length prefix: padding contributes exactly zero. -/
lemma goldScoreM_canonical {v : Nat} (c : CRF ℝ (v + 1)) (e : Fin (v + 1) → ℝ)
    (esPre esPad : List (Fin (v + 1) → ℝ)) (y : Fin (v + 1))
    (ysPre ysPad : List (Fin (v + 1)))
    (h1 : ysPre.length = esPre.length) (_h2 : ysPad.length = esPad.length) :
    goldScoreM c (e :: (esPre ++ esPad)) (y :: (ysPre ++ ysPad))
        (true :: (List.replicate esPre.length true ++ List.replicate esPad.length false))
      = pathScore c (e :: esPre) (y :: ysPre) := by
  rw [goldScoreM]
  have hz : (esPre ++ esPad).zip ((ysPre ++ ysPad).zip
        (List.replicate esPre.length true ++ List.replicate esPad.length false))
      = esPre.zip (ysPre.zip (List.replicate esPre.length true))
        ++ esPad.zip (ysPad.zip (List.replicate esPad.length false)) := by
    rw [List.zip_append (by simp [h1]), List.zip_append (by simp [h1, List.length_zip])]
  rw [hz, List.foldl_append, goldRunM_trues c esPre ysPre y (c.startTrans y + e y) h1,
    goldRunM_falses]
  rw [pathScore]

/-- The per-item masked loss over a right-padded mask equals
partition minus gold path score on the true-length prefix. -/
lemma crfItemLoss_canonical {v : Nat} (c : CRF ℝ (v + 1)) (e : Fin (v + 1) → ℝ)
    (esPre esPad : List (Fin (v + 1) → ℝ)) (y : Fin (v + 1))
    (ysPre ysPad : List (Fin (v + 1)))
    (h1 : ysPre.length = esPre.length) (h2 : ysPad.length = esPad.length) :
    crfItemLoss c (e :: (esPre ++ esPad)) (y :: (ysPre ++ ysPad))
        (true :: (List.replicate esPre.length true ++ List.replicate esPad.length false))
      = logZ c (e :: esPre) - pathScore c (e :: esPre) (y :: ysPre) := by
  rw [crfItemLoss, logZM_canonical, goldScoreM_canonical c e esPre esPad y ysPre ysPad h1 h2]

/-- The masked decode over a right-padded mask is the Viterbi decode of
the true-length prefix. -/
lemma crfDecode_canonical {v : Nat} (c : CRF ℝ (v + 1)) (e : Fin (v + 1) → ℝ)
    (esPre esPad : List (Fin (v + 1) → ℝ)) :
    crfDecode c (e :: (esPre ++ esPad))
        (true :: (List.replicate esPre.length true ++ List.replicate esPad.length false))
      = viterbiDecode c (e :: esPre) := by
  rw [crfDecode]
  have hm : trueLenOf (true :: (List.replicate esPre.length true
      ++ List.replicate esPad.length false)) = esPre.length + 1 := by
    rw [show (true :: (List.replicate esPre.length true ++ List.replicate esPad.length false))
        = List.replicate (esPre.length + 1) true ++ List.replicate esPad.length false by
      rw [List.replicate_succ, List.cons_append]]
    exact trueLenOf_replicate_append (esPre.length + 1) esPad.length
  rw [hm, List.take_succ_cons, List.take_left]

/-- The unpadded special cases of the canonical lemmas. -/
lemma crfItemLoss_unpadded {v : Nat} (c : CRF ℝ (v + 1)) (e : Fin (v + 1) → ℝ)
    (esPre : List (Fin (v + 1) → ℝ)) (y : Fin (v + 1)) (ysPre : List (Fin (v + 1)))
    (h1 : ysPre.length = esPre.length) :
    crfItemLoss c (e :: esPre) (y :: ysPre) (true :: List.replicate esPre.length true)
      = logZ c (e :: esPre) - pathScore c (e :: esPre) (y :: ysPre) := by
  have := crfItemLoss_canonical c e esPre [] y ysPre [] h1 rfl
  simpa using this

lemma crfDecode_unpadded {v : Nat} (c : CRF ℝ (v + 1)) (e : Fin (v + 1) → ℝ)
    (esPre : List (Fin (v + 1) → ℝ)) :
    crfDecode c (e :: esPre) (true :: List.replicate esPre.length true)
      = viterbiDecode c (e :: esPre) := by
  have := crfDecode_canonical c e esPre []
  simpa using this

/-- **C4**: appending padding positions (mask `false`) changes neither the
loss nor the decoded output of the true-length prefix; the padding
positions contribute exactly zero to both the gold path score and the
partition function. -/
theorem crf_padding_invariance {v : Nat} (c : CRF ℝ (v + 1)) (e : Fin (v + 1) → ℝ)
    (esPre esPad : List (Fin (v + 1) → ℝ)) (y : Fin (v + 1))
    (ysPre ysPad : List (Fin (v + 1)))
    (h1 : ysPre.length = esPre.length) (h2 : ysPad.length = esPad.length) :
    crfItemLoss c (e :: (esPre ++ esPad)) (y :: (ysPre ++ ysPad))
        (true :: (List.replicate esPre.length true ++ List.replicate esPad.length false))
      = crfItemLoss c (e :: esPre) (y :: ysPre) (true :: List.replicate esPre.length true)
    ∧ crfDecode c (e :: (esPre ++ esPad))
        (true :: (List.replicate esPre.length true ++ List.replicate esPad.length false))
      = crfDecode c (e :: esPre) (true :: List.replicate esPre.length true)
    ∧ goldScoreM c (e :: (esPre ++ esPad)) (y :: (ysPre ++ ysPad))
        (true :: (List.replicate esPre.length true ++ List.replicate esPad.length false))
      = pathScore c (e :: esPre) (y :: ysPre)
    ∧ logZM c (e :: (esPre ++ esPad))
        (true :: (List.replicate esPre.length true ++ List.replicate esPad.length false))
      = logZ c (e :: esPre) := by
  refine ⟨?_, ?_, goldScoreM_canonical c e esPre esPad y ysPre ysPad h1 h2,
    logZM_canonical c e esPre esPad⟩
  · rw [crfItemLoss_canonical c e esPre esPad y ysPre ysPad h1 h2,
      crfItemLoss_unpadded c e esPre y ysPre h1]
  · rw [crfDecode_canonical, crfDecode_unpadded]

/-- Witness for C4: one real position and one appended padding position. -/
theorem crf_padding_invariance_witness :
    crfItemLoss (⟨fun _ _ => 0, fun _ => 0, fun _ => 0⟩ : CRF ℝ 1)
        [fun _ => 0, fun _ => 0] [0, 0] [true, false]
      = crfItemLoss (⟨fun _ _ => 0, fun _ => 0, fun _ => 0⟩ : CRF ℝ 1)
          [fun _ => 0] [0] [true] :=
  (crf_padding_invariance (⟨fun _ _ => 0, fun _ => 0, fun _ => 0⟩ : CRF ℝ 1)
    (fun _ => 0) [] [fun _ => 0] 0 [] [0] rfl rfl).1

/-- **C5**: `CRF.forward` yields one scalar loss per batch item, in batch
order, each equal to the partition-function score (the log-sum-exp over
all tag sequences of the path score) minus the gold path score of the
true-length prefix; per-item losses are summed contributions, never
averaged. -/
theorem crf_forward_loss {v : Nat} (c : CRF ℝ (v + 1)) :
    (∀ (e : Fin (v + 1) → ℝ) (esPre esPad : List (Fin (v + 1) → ℝ)) (y : Fin (v + 1))
      (ysPre ysPad : List (Fin (v + 1))),
      ysPre.length = esPre.length → ysPad.length = esPad.length →
      crfItemLoss c (e :: (esPre ++ esPad)) (y :: (ysPre ++ ysPad))
          (true :: (List.replicate esPre.length true ++ List.replicate esPad.length false))
        = specLogZ c (e :: esPre) - pathScore c (e :: esPre) (y :: ysPre))
    ∧ ∀ (items : List (BatchItem ℝ v)),
        batchCrfForward c items = items.map fun it => crfItemLoss c it.1 it.2.1 it.2.2 := by
  refine ⟨?_, fun items => rfl⟩
  intro e esPre esPad y ysPre ysPad h1 h2
  rw [crfItemLoss_canonical c e esPre esPad y ysPre ysPad h1 h2, logZ_eq_specLogZ]

/-- Witness for C5: a single real position with one padding position. -/
theorem crf_forward_loss_witness :
    crfItemLoss (⟨fun _ _ => 0, fun _ => 0, fun _ => 0⟩ : CRF ℝ 1)
        [fun _ => 0, fun _ => 0] [0, 0] [true, false]
      = specLogZ (⟨fun _ _ => 0, fun _ => 0, fun _ => 0⟩ : CRF ℝ 1) [fun _ => 0]
        - pathScore (⟨fun _ _ => 0, fun _ => 0, fun _ => 0⟩ : CRF ℝ 1) [fun _ => 0] [0] :=
  (crf_forward_loss (⟨fun _ _ => 0, fun _ => 0, fun _ => 0⟩ : CRF ℝ 1)).1
    (fun _ => 0) [] [fun _ => 0] 0 [] [0] rfl rfl

/-- **C9**: per-item results are independent of the rest of the batch:
if two batches contain the same true item content (same prefix, arbitrary
right padding), that item's loss and decoded sequence agree in both
batches. -/
theorem crf_batch_item_independence {v : Nat} (c : CRF ℝ (v + 1))
    (b1 b2 : List (BatchItem ℝ v)) (i j : Nat) (e : Fin (v + 1) → ℝ)
    (esPre esPad1 esPad2 : List (Fin (v + 1) → ℝ)) (y : Fin (v + 1))
    (ysPre ysPad1 ysPad2 : List (Fin (v + 1)))
    (hb1 : b1[i]? = some (e :: (esPre ++ esPad1), y :: (ysPre ++ ysPad1),
      true :: (List.replicate esPre.length true ++ List.replicate esPad1.length false)))
    (hb2 : b2[j]? = some (e :: (esPre ++ esPad2), y :: (ysPre ++ ysPad2),
      true :: (List.replicate esPre.length true ++ List.replicate esPad2.length false)))
    (h1 : ysPre.length = esPre.length) (hp1 : ysPad1.length = esPad1.length)
    (hp2 : ysPad2.length = esPad2.length) :
    (batchCrfForward c b1)[i]? = (batchCrfForward c b2)[j]?
      ∧ (batchCrfDecode c b1)[i]? = (batchCrfDecode c b2)[j]? := by
  constructor
  · rw [batchCrfForward, batchCrfForward, List.getElem?_map, List.getElem?_map, hb1, hb2]
    rw [Option.map_some', Option.map_some']
    refine congrArg some ?_
    show crfItemLoss c (e :: (esPre ++ esPad1)) (y :: (ysPre ++ ysPad1))
        (true :: (List.replicate esPre.length true ++ List.replicate esPad1.length false))
      = crfItemLoss c (e :: (esPre ++ esPad2)) (y :: (ysPre ++ ysPad2))
        (true :: (List.replicate esPre.length true ++ List.replicate esPad2.length false))
    rw [crfItemLoss_canonical c e esPre esPad1 y ysPre ysPad1 h1 hp1,
      crfItemLoss_canonical c e esPre esPad2 y ysPre ysPad2 h1 hp2]
  · rw [batchCrfDecode, batchCrfDecode, List.getElem?_map, List.getElem?_map, hb1, hb2]
    rw [Option.map_some', Option.map_some']
    refine congrArg some ?_
    show crfDecode c (e :: (esPre ++ esPad1))
        (true :: (List.replicate esPre.length true ++ List.replicate esPad1.length false))
      = crfDecode c (e :: (esPre ++ esPad2))
        (true :: (List.replicate esPre.length true ++ List.replicate esPad2.length false))
    rw [crfDecode_canonical, crfDecode_canonical]

/-- Witness for C9: the same one-token item at position 0 of two batches
with different padding. -/
theorem crf_batch_item_independence_witness :
    (batchCrfForward (⟨fun _ _ => 0, fun _ => 0, fun _ => 0⟩ : CRF ℝ 1)
        ([([fun _ => 0, fun _ => 0], [0, 0], [true, false])] : List (BatchItem ℝ 0)))[0]?
      = (batchCrfForward (⟨fun _ _ => 0, fun _ => 0, fun _ => 0⟩ : CRF ℝ 1)
        ([([fun _ => 0], [0], [true])] : List (BatchItem ℝ 0)))[0]? :=
  (crf_batch_item_independence (⟨fun _ _ => 0, fun _ => 0, fun _ => 0⟩ : CRF ℝ 1)
    ([([fun _ => 0, fun _ => 0], [0, 0], [true, false])] : List (BatchItem ℝ 0))
    ([([fun _ => 0], [0], [true])] : List (BatchItem ℝ 0)) 0 0
    (fun _ => 0) [] [fun _ => 0] [] 0 [] [0] [] rfl rfl rfl rfl rfl).1

end Eznlp
